import Mathlib

/-!
# Verification of the rateslib cookbook's curve/solver/dual specification

The repository consists of cookbook scripts driving an external
quantitative-finance library (`rateslib`).  The curve-construction,
interpolation, dual-number and solver machinery that the specification
describes lives in that external library; the scripts under `src/` only
call it.  Accordingly the definitions below are modelled from the
specification's own description of that machinery (doc comments state
this explicitly), and the theorems settle the specification's testable
properties against these models.

Conventions of the embedding:
* dates are day numbers embedded in `ℚ`;
* discount factors and rates are exact rationals, or reals where a
  logarithm/exponential is inherent (`log_linear`, continuous forward
  rates);
* fallible operations return `Option`/`Except`;
* in-place mutation of curve node values is explicit state passing on a
  `Store := CurveId → List ℚ`.
-/

namespace Rateslib

/-! ## Dual numbers (spec §3, §4.1) -/

/-- Modelled from the spec: a dual number carries a real (scalar) part, an
ordered list of variable names, and positionally aligned first-order
partials (`len(dual) == len(vars)`).  The scalar type is a parameter:
`ℚ` where exact executable arithmetic suffices, `ℝ` where the power
operator's exponential/logarithm is inherent. -/
structure Dual (F : Type) where
  real : F
  vars : List String
  dual : List F
  deriving Repr, DecidableEq

/-- Errors of dual-number construction and arithmetic (spec §7). -/
inductive DualError where
  | dimensionMismatch
  deriving Repr, DecidableEq

/-- Modelled from the spec: `make(real, vars, partials)` fails with
`DimensionMismatch` if `len(vars) != len(partials)`. -/
def make {F : Type} (r : F) (vs : List String) (ps : List F) :
    Except DualError (Dual F) :=
  if vs.length = ps.length then .ok ⟨r, vs, ps⟩ else .error .dimensionMismatch

/-- Ordered union of two variable lists: the left operand's variables in
order, then the right operand's variables not already present, in order. -/
def uniteVars (v₁ v₂ : List String) : List String :=
  v₁ ++ v₂.filter (fun v => ¬ v ∈ v₁)

/-- Modelled from the spec: a plain scalar is treated as a dual number
with an empty variable set (zero sensitivity). -/
def fromScalar {F : Type} (c : F) : Dual F := ⟨c, [], []⟩

section DualOps

variable {F : Type} [Field F]

/-- The partial derivative of a dual number with respect to a named
variable; a variable absent from `vars` contributes zero. -/
def partialOf (d : Dual F) (v : String) : F :=
  (List.lookup v (d.vars.zip d.dual)).getD 0

/-- Addition of dual numbers: upcast both operands to the ordered union
of the variable sets (missing partials are zero) and add positionally. -/
def dadd (x y : Dual F) : Dual F :=
  let u := uniteVars x.vars y.vars
  ⟨x.real + y.real, u, u.map (fun v => partialOf x v + partialOf y v)⟩

/-- Subtraction of dual numbers, with the same upcasting rule. -/
def dsub (x y : Dual F) : Dual F :=
  let u := uniteVars x.vars y.vars
  ⟨x.real - y.real, u, u.map (fun v => partialOf x v - partialOf y v)⟩

/-- Product of dual numbers: product rule on the upcast partials. -/
def dmul (x y : Dual F) : Dual F :=
  let u := uniteVars x.vars y.vars
  ⟨x.real * y.real, u,
    u.map (fun v => partialOf x v * y.real + x.real * partialOf y v)⟩

/-- Quotient of dual numbers: quotient rule on the upcast partials. -/
def ddiv (x y : Dual F) : Dual F :=
  let u := uniteVars x.vars y.vars
  ⟨x.real / y.real, u,
    u.map (fun v =>
      (partialOf x v * y.real - x.real * partialOf y v) / (y.real * y.real))⟩

end DualOps

/-- Modelled from the spec: power `x ** y` between two dual numbers, on
the ordered union of both operands' variable sets with missing partials
zero, like every other operator.  The value is `x^y` and the partials
follow the chain rule for power,
`d(x^y) = x^y * (dy * ln x + y * dx / x)`, which is why this operator
lives over `ℝ` (a scalar exponent is the special case of an exponent
with an empty variable set, `fromScalar n`, whose partials are zero). -/
noncomputable def dpow (x y : Dual ℝ) : Dual ℝ :=
  let u := uniteVars x.vars y.vars
  ⟨x.real ^ y.real, u,
    u.map (fun v =>
      x.real ^ y.real *
        (partialOf y v * Real.log x.real + y.real * partialOf x v / x.real))⟩

/-! ## Interpolation engine (spec §4.2)

Each strategy maps a query date to a value given the ordered node set.
The transform-based strategies (`linear`, `log_linear`, `linear_index`,
`linear_zero_rate`) are all linear interpolation in a transformed space:
`result = fromT t (lerp (toT t₀ v₀) (toT t₁ v₁) w)` with
`w = (t - t₀)/(t₁ - t₀)` on the bracketing segment `[t₀, t₁]`.  The
transform pair is passed as an argument; theorems instantiate it with
`id`/`id` (linear), `Real.log`/`Real.exp` (log_linear), reciprocals
(linear_index) and the zero-rate transform (linear_zero_rate). -/

section Interp

variable {F : Type} [LinearOrderedField F]

/-- Modelled from the spec: bracketing-segment interpolation in a
transformed space.  Querying before the first node is `OutOfDomain`
(`none`); a query inside segment `[t₀, t₁]` interpolates the transformed
node values linearly in the date; later dates recurse into the tail. -/
def lookupWith (toT fromT : F → F → F) : List (F × F) → F → Option F
  | [], _ => none
  | [(t₀, v₀)], t => if t = t₀ then some v₀ else none
  | (t₀, v₀) :: (t₁, v₁) :: rest, t =>
      if t < t₀ then none
      else if t ≤ t₁ then
        some (fromT t (toT t₀ v₀ + ((t - t₀) / (t₁ - t₀)) * (toT t₁ v₁ - toT t₀ v₀)))
      else lookupWith toT fromT ((t₁, v₁) :: rest) t

/-- Modelled from the spec: `flat_forward` holds the value constant at
the left node's value until the next node. -/
def flatLookup : List (F × F) → F → Option F
  | [], _ => none
  | [(t₀, v₀)], t => if t = t₀ then some v₀ else none
  | (t₀, v₀) :: (t₁, v₁) :: rest, t =>
      if t < t₀ then none
      else if t < t₁ then some v₀
      else flatLookup ((t₁, v₁) :: rest) t

/-- ACT/360 day-count fraction between two day numbers (spec glossary). -/
def dcf360 (s u : F) : F := (u - s) / 360

/-- Continuously-compounded forward rate sampled between two dates from
their discount factors: `-log(df_u/df_s)/dcf = (log df_s - log df_u)/dcf`
(the metric used by the repository's interpolation-clarification script).
The logarithm is passed as an argument; theorems instantiate `Real.log`. -/
def fwdRateWith (logF : F → F) (dfS dfU dcf : F) : F :=
  (logF dfS - logF dfU) / dcf

/-- Modelled from the spec: Cox–de Boor recursion for the B-spline basis
function of degree `k` with index `i` over the (possibly repeated) knot
sequence.  A zero-width knot span contributes zero (division by zero is
zero in this field embedding, matching the standard convention). -/
def bspl (knots : List F) : ℕ → ℕ → F → F
  | 0, i, t => if knots.getD i 0 ≤ t ∧ t < knots.getD (i + 1) 0 then 1 else 0
  | k + 1, i, t =>
      (t - knots.getD i 0) / (knots.getD (i + k + 1) 0 - knots.getD i 0)
          * bspl knots k i t
        + (knots.getD (i + k + 2) 0 - t)
            / (knots.getD (i + k + 2) 0 - knots.getD (i + 1) 0)
          * bspl knots k (i + 1) t

/-- Modelled from the spec: the collocation matrix of the cubic-spline
fit — the `j`-th cubic basis function evaluated at the `i`-th node date. -/
def collocMat (knots : List F) (nodes : List (F × F)) :
    Matrix (Fin nodes.length) (Fin nodes.length) F :=
  fun i j => bspl knots 3 (j : ℕ) (nodes.get i).1

/-- Modelled from the spec: the spline fit solves the square collocation
system for the basis coefficients (explicit inverse via the adjugate, so
the fit is exact whenever the system is nonsingular). -/
def splineCoeffs (knots : List F) (nodes : List (F × F)) :
    Fin nodes.length → F :=
  (collocMat knots nodes).det⁻¹ •
    ((collocMat knots nodes).adjugate.mulVec (fun i => (nodes.get i).2))

/-- Modelled from the spec: spline lookup evaluates the fitted piecewise
cubic — the coefficient-weighted sum of the basis functions. -/
def splineLookup (knots : List F) (nodes : List (F × F)) (t : F) : F :=
  ∑ j, splineCoeffs knots nodes j * bspl knots 3 (j : ℕ) t

/-- Modelled from the spec: `translate(new_anchor_date)` re-anchors the
curve at the given date, inferring the new first node's value with the
curve's own interpolation and keeping the strictly later nodes. -/
def translate (lookupF : List (F × F) → F → Option F)
    (nodes : List (F × F)) (t' : F) : List (F × F) :=
  (t', (lookupF nodes t').getD 0) :: nodes.filter (fun p => t' < p.1)

end Interp

/-! ## Solver (spec §4.4)

In-place mutation of curve node values is embedded as explicit state
passing on a store mapping curve ids to node-value vectors. -/

/-- Curve identifier. -/
abbrev CurveId := ℕ

/-- The mutable state: node values of every curve, by curve id. -/
abbrev Store := CurveId → List ℚ

/-- Solver failure results (spec §7). -/
inductive SolverError where
  | nonConvergence
  | cyclicDependency
  deriving Repr, DecidableEq

/-- Modelled from the spec: a solver owns the ids of the curves it
calibrates, a list of calibration instruments (each a model-value
function of the curve store), their target quotes, a convergence
tolerance and an iteration cap. -/
structure SolverCfg where
  owned : List CurveId
  instruments : List (Store → ℚ)
  targets : List ℚ
  tol : ℚ
  maxIter : ℕ

/-- Residual of one (instrument, target) pair: model value minus target. -/
def residual (st : Store) (p : (Store → ℚ) × ℚ) : ℚ := p.1 st - p.2

/-- Modelled from the spec: convergence check — every calibration
instrument's absolute residual is strictly below the tolerance. -/
def convergedB (cfg : SolverCfg) (st : Store) : Bool :=
  (cfg.instruments.zip cfg.targets).all (fun p => |residual st p| < cfg.tol)

/-- One damped-Newton update of the node values, restricted to the curves
this solver owns: curves not owned by the solver are never written.  The
numerical update rule `upd` is a parameter (the spec prescribes a damped
Newton/Levenberg–Marquardt step computed from dual-number Jacobians; the
frame and convergence theorems below hold for every update rule). -/
def stepStore (cfg : SolverCfg) (upd : Store → CurveId → List ℚ)
    (st : Store) : Store :=
  fun id => if id ∈ cfg.owned then upd st id else st id

/-- Modelled from the spec: the iteration loop — return the current state
as soon as every residual is inside tolerance, otherwise apply the update
step; exhausting the iteration cap fails with `NonConvergence`. -/
def solveLoop (cfg : SolverCfg) (upd : Store → CurveId → List ℚ) :
    ℕ → Store → Except SolverError Store
  | 0, _ => .error .nonConvergence
  | n + 1, st =>
      if convergedB cfg st then .ok st
      else solveLoop cfg upd n (stepStore cfg upd st)

/-- Modelled from the spec and the repository's usage pattern (scripts
construct `Solver(...)` and immediately read calibrated curves, with no
separate `solve()` call): the constructor itself runs the full
calibration loop, returning the solver together with the mutated store. -/
def mkSolver (cfg : SolverCfg) (upd : Store → CurveId → List ℚ)
    (st : Store) : Except SolverError (SolverCfg × Store) :=
  (solveLoop cfg upd cfg.maxIter st).map (fun st' => (cfg, st'))

/-! ## Solver dependency graph (spec §4.4, §7)

`deps id` lists the pre-solver references of solver `id`.  Constructing
the solver set must detect cyclic pre-solver references and fail with
`CyclicDependency` before any solve iteration runs. -/

/-- A nonempty pre-solver dependency path: `ReachPlus deps a b` holds
when `b` is reachable from `a` through at least one pre-solver edge.  A
cyclic dependency is `ReachPlus deps a a`. -/
inductive ReachPlus (deps : ℕ → List ℕ) : ℕ → ℕ → Prop
  | base {a b : ℕ} : b ∈ deps a → ReachPlus deps a b
  | step {a b c : ℕ} : b ∈ deps a → ReachPlus deps b c → ReachPlus deps a c

/-- One construction pass: construct every solver all of whose
pre-solvers are already constructed. -/
def constructPass (deps : ℕ → List ℕ) (ids : List ℕ) (built : List ℕ) :
    List ℕ :=
  ids.foldl
    (fun acc id =>
      if ¬ id ∈ acc ∧ (deps id).all (fun d => d ∈ acc) then acc ++ [id]
      else acc)
    built

/-- Iterated construction passes (the pass count bounds the longest
dependency chain, so `ids.length` passes reach the fixpoint). -/
def constructAll (deps : ℕ → List ℕ) (ids : List ℕ) :
    ℕ → List ℕ → List ℕ
  | 0, built => built
  | n + 1, built => constructAll deps ids n (constructPass deps ids built)

/-- Modelled from the spec: construction of a set of solvers succeeds
with the construction order when every solver can be built on top of its
pre-solvers, and fails with `CyclicDependency` otherwise — at
construction time, before any solve iteration. -/
def constructSolverSet (deps : ℕ → List ℕ) (ids : List ℕ) :
    Except SolverError (List ℕ) :=
  let built := constructAll deps ids ids.length []
  if ids.all (fun id => id ∈ built) then .ok built
  else .error .cyclicDependency

/-- Construction followed by solving: the solve phase (an arbitrary
state transformation over the constructed solvers) runs only when
construction succeeded. -/
def buildAndSolve (deps : ℕ → List ℕ) (ids : List ℕ)
    (runAll : List ℕ → Store → Store) (st : Store) :
    Except SolverError Store :=
  match constructSolverSet deps ids with
  | .ok built => .ok (runAll built st)
  | .error e => .error e

/-! ## Lemmas: dual numbers -/

theorem lookup_zip_map {β : Type} (f : String → β) (u : List String) (v : String)
    (h : v ∈ u) : List.lookup v (u.zip (u.map f)) = some (f v) := by
  induction u with
  | nil => simp at h
  | cons a tl ih =>
      rcases List.mem_cons.mp h with h1 | h1
      · subst h1; simp [List.lookup]
      · by_cases hva : v = a
        · subst hva; simp [List.lookup]
        · have hf : (v == a) = false := beq_eq_false_iff_ne.mpr hva
          simpa [List.lookup, hf] using ih h1

theorem lookup_zip_none {β : Type} (l₁ : List String) (l₂ : List β) (v : String)
    (h : ¬ v ∈ l₁) : List.lookup v (l₁.zip l₂) = none := by
  induction l₁ generalizing l₂ with
  | nil => simp
  | cons a tl ih =>
      cases l₂ with
      | nil => simp
      | cons b tl₂ =>
          have hva : ¬ v = a := fun hh => h (hh ▸ List.mem_cons_self a tl)
          have hf : (v == a) = false := beq_eq_false_iff_ne.mpr hva
          simp [List.lookup, hf]
          intro k bb hmem hvk
          exact h (hvk ▸ List.mem_cons_of_mem a (List.of_mem_zip hmem).1)

theorem partialOf_mk {F : Type} [Field F] (r : F) (u : List String)
    (f : String → F) (v : String) (h : v ∈ u) :
    partialOf ⟨r, u, u.map f⟩ v = f v := by
  simp [partialOf, lookup_zip_map f u v h]

theorem partialOf_not_mem {F : Type} [Field F] (d : Dual F) (v : String)
    (h : ¬ v ∈ d.vars) : partialOf d v = 0 := by
  simp [partialOf, lookup_zip_none _ _ _ h]

theorem mem_uniteVars (v : String) (v₁ v₂ : List String) :
    v ∈ uniteVars v₁ v₂ ↔ v ∈ v₁ ∨ v ∈ v₂ := by
  simp only [uniteVars, List.mem_append, List.mem_filter, decide_eq_true_iff]
  tauto

/-- C6: `make(real, vars, partials)` fails with `DimensionMismatch`
whenever the lengths of the vars and partials sequences differ — in
particular for a non-empty vars list with an empty partials sequence. -/
theorem make_dimension_mismatch (r : ℚ) (vs : List String) (ps : List ℚ)
    (h : vs.length ≠ ps.length) :
    make r vs ps = .error .dimensionMismatch := by
  simp [make, h]

/-- Witness for C6 at the repository's example input `Dual(2.1, ["y"], [])`. -/
theorem make_dimension_mismatch_check :
    (["y"].length ≠ ([] : List ℚ).length)
      ∧ make (21/10 : ℚ) ["y"] [] = .error .dimensionMismatch :=
  ⟨by decide, make_dimension_mismatch (21/10) ["y"] [] (by decide)⟩

/-- C7: every dual-number arithmetic operator (`+`, `-`, `*`, `/`, `**`)
between two dual numbers produces the ordered union of the operands'
variable sets (characterised by membership), an operand missing a
variable contributes a zero partial for it, the result partials act on
the zero-upcast operands — sum, difference, product rule, quotient rule,
and the chain rule for power `d(x^y) = x^y (dy ln x + y dx / x)` — and a
plain scalar behaves as a dual number with an empty variable set and
zero partials. -/
theorem dual_ops_ordered_union (x y : Dual ℝ) (c : ℝ) (v : String) :
    ((dadd x y).vars = uniteVars x.vars y.vars
      ∧ (dsub x y).vars = uniteVars x.vars y.vars
      ∧ (dmul x y).vars = uniteVars x.vars y.vars
      ∧ (ddiv x y).vars = uniteVars x.vars y.vars
      ∧ (dpow x y).vars = uniteVars x.vars y.vars)
    ∧ (v ∈ (dadd x y).vars ↔ v ∈ x.vars ∨ v ∈ y.vars)
    ∧ (v ∈ (dpow x y).vars ↔ v ∈ x.vars ∨ v ∈ y.vars)
    ∧ (¬ v ∈ x.vars → partialOf x v = 0)
    ∧ (v ∈ uniteVars x.vars y.vars →
        partialOf (dadd x y) v = partialOf x v + partialOf y v
          ∧ partialOf (dsub x y) v = partialOf x v - partialOf y v
          ∧ partialOf (dmul x y) v
              = partialOf x v * y.real + x.real * partialOf y v
          ∧ partialOf (ddiv x y) v
              = (partialOf x v * y.real - x.real * partialOf y v)
                  / (y.real * y.real)
          ∧ partialOf (dpow x y) v
              = x.real ^ y.real *
                  (partialOf y v * Real.log x.real
                    + y.real * partialOf x v / x.real))
    ∧ (fromScalar c).vars = []
    ∧ partialOf (fromScalar c) v = 0
    ∧ (dadd x (fromScalar c)).vars = x.vars
    ∧ (dmul x (fromScalar c)).vars = x.vars
    ∧ (dpow x (fromScalar c)).vars = x.vars := by
  refine ⟨⟨rfl, rfl, rfl, rfl, rfl⟩, mem_uniteVars v x.vars y.vars,
    mem_uniteVars v x.vars y.vars, partialOf_not_mem x v, ?_, rfl, rfl,
    ?_, ?_, ?_⟩
  · intro hv
    exact ⟨partialOf_mk _ _ _ _ hv, partialOf_mk _ _ _ _ hv,
      partialOf_mk _ _ _ _ hv, partialOf_mk _ _ _ _ hv,
      partialOf_mk _ _ _ _ hv⟩
  · simp [dadd, uniteVars, fromScalar]
  · simp [dmul, uniteVars, fromScalar]
  · simp [dpow, uniteVars, fromScalar]

/-- Witness for C7 at the repository's upcasting example
`Dual(11.0, ["x","y"], [3,8])` combined with `Dual(-3.0, ["y","z"], [-2,5])`
by `+` and by `**`, and the power chain rule evaluated at `x ** 2` for
`x = Dual(3.0, ["x"], [1.0])` (derivative `6`). -/
theorem dual_ops_ordered_union_check :
    ((dadd (⟨11, ["x", "y"], [3, 8]⟩ : Dual ℝ) ⟨-3, ["y", "z"], [-2, 5]⟩).vars
        = uniteVars ["x", "y"] ["y", "z"])
    ∧ partialOf
          (dadd (⟨11, ["x", "y"], [3, 8]⟩ : Dual ℝ) ⟨-3, ["y", "z"], [-2, 5]⟩)
          "z"
        = partialOf (⟨11, ["x", "y"], [3, 8]⟩ : Dual ℝ) "z"
            + partialOf (⟨(-3), ["y", "z"], [-2, 5]⟩ : Dual ℝ) "z"
    ∧ (dpow ⟨11, ["x", "y"], [3, 8]⟩ ⟨-3, ["y", "z"], [-2, 5]⟩).vars
        = uniteVars ["x", "y"] ["y", "z"]
    ∧ partialOf
          (dpow ⟨11, ["x", "y"], [3, 8]⟩ ⟨-3, ["y", "z"], [-2, 5]⟩) "z"
        = (11 : ℝ) ^ (-3 : ℝ) *
            (partialOf (⟨(-3), ["y", "z"], [-2, 5]⟩ : Dual ℝ) "z" * Real.log 11
              + (-3) * partialOf (⟨11, ["x", "y"], [3, 8]⟩ : Dual ℝ) "z" / 11)
    ∧ partialOf (dpow ⟨3, ["x"], [1]⟩ (fromScalar 2)) "x" = 6 := by
  refine ⟨(dual_ops_ordered_union ⟨11, ["x", "y"], [3, 8]⟩
      ⟨-3, ["y", "z"], [-2, 5]⟩ 0 "z").1.1,
    ((dual_ops_ordered_union ⟨11, ["x", "y"], [3, 8]⟩
      ⟨-3, ["y", "z"], [-2, 5]⟩ 0 "z").2.2.2.2.1 (by decide)).1,
    (dual_ops_ordered_union ⟨11, ["x", "y"], [3, 8]⟩
      ⟨-3, ["y", "z"], [-2, 5]⟩ 0 "z").1.2.2.2.2,
    ((dual_ops_ordered_union ⟨11, ["x", "y"], [3, 8]⟩
      ⟨-3, ["y", "z"], [-2, 5]⟩ 0 "z").2.2.2.2.1 (by decide)).2.2.2.2, ?_⟩
  have hrule := ((dual_ops_ordered_union ⟨3, ["x"], [1]⟩ (fromScalar 2)
      0 "x").2.2.2.2.1 (by decide)).2.2.2.2
  rw [hrule]
  have e₁ : partialOf (fromScalar (2 : ℝ)) "x" = 0 := rfl
  have e₂ : partialOf (⟨3, ["x"], [1]⟩ : Dual ℝ) "x" = 1 := by
    simp [partialOf, List.lookup]
  rw [e₁, e₂]
  show (3 : ℝ) ^ (2 : ℝ) * (0 * Real.log 3 + 2 * 1 / 3) = 6
  rw [show (2 : ℝ) = ((2 : ℕ) : ℝ) by norm_num, Real.rpow_natCast]
  norm_num

/-! ## Lemmas: solver iteration -/

theorem solveLoop_ok_converged (cfg : SolverCfg) (upd : Store → CurveId → List ℚ) :
    ∀ (fuel : ℕ) (st st' : Store), solveLoop cfg upd fuel st = .ok st' →
      convergedB cfg st' = true := by
  intro fuel
  induction fuel with
  | zero => intro st st' h; simp [solveLoop] at h
  | succ n ih =>
      intro st st' h
      rw [solveLoop] at h
      by_cases hc : convergedB cfg st
      · simp [hc] at h; simpa [← h] using hc
      · simp [hc] at h; exact ih _ _ h

theorem convergedB_reprices (cfg : SolverCfg) (st : Store)
    (h : convergedB cfg st = true) :
    ∀ p ∈ cfg.instruments.zip cfg.targets, |p.1 st - p.2| < cfg.tol := by
  intro p hp
  have := (List.all_eq_true.mp h) p hp
  simpa [residual] using this

theorem solveLoop_frame (cfg : SolverCfg) (upd : Store → CurveId → List ℚ) :
    ∀ (fuel : ℕ) (st st' : Store), solveLoop cfg upd fuel st = .ok st' →
      ∀ id, ¬ id ∈ cfg.owned → st' id = st id := by
  intro fuel
  induction fuel with
  | zero => intro st st' h; simp [solveLoop] at h
  | succ n ih =>
      intro st st' h id hid
      rw [solveLoop] at h
      by_cases hc : convergedB cfg st
      · simp [hc] at h; rw [← h]
      · simp [hc] at h
        rw [ih _ _ h id hid]
        simp [stepStore, hid]

/-- C1: after a successful solve, every calibration instrument reprices
to its target: the absolute difference between the instrument's model
value on the calibrated store and its target quote is strictly below the
solver's tolerance. -/
theorem solver_repricing (cfg : SolverCfg) (upd : Store → CurveId → List ℚ)
    (fuel : ℕ) (st st' : Store) (h : solveLoop cfg upd fuel st = .ok st') :
    ∀ p ∈ cfg.instruments.zip cfg.targets, |p.1 st' - p.2| < cfg.tol :=
  convergedB_reprices cfg st' (solveLoop_ok_converged cfg upd fuel st st' h)

set_option maxHeartbeats 1000000 in
/-- Witness for C1: a one-curve, one-instrument solve that succeeds, and
every instrument of the configuration reprices inside tolerance. -/
theorem solver_repricing_check :
    solveLoop ⟨[0], [fun st => (st 0).headD 0], [5], 1, 1⟩
        (fun _ _ => []) 1 (fun _ => [5]) = .ok (fun _ => [5])
    ∧ |(fun (st : Store) => (st 0).headD 0) (fun _ => [5]) - 5|
        < (⟨[0], [fun st => (st 0).headD 0], [5], 1, 1⟩ : SolverCfg).tol := by
  have h : solveLoop ⟨[0], [fun st => (st 0).headD 0], [5], 1, 1⟩
      (fun _ _ => []) 1 (fun _ => [5]) = .ok (fun _ => [5]) := by
    norm_num [solveLoop, convergedB, residual]
  exact ⟨h, solver_repricing ⟨[0], [fun st => (st 0).headD 0], [5], 1, 1⟩
    (fun _ _ => []) 1 (fun _ => [5]) (fun _ => [5]) h
    ((fun (st : Store) => (st 0).headD 0), 5) (List.mem_singleton.mpr rfl)⟩

/-- C4: a dependent solver's solve writes only the node values of the
curves it owns: every curve owned by the pre-solver `A` (disjoint from
the dependent solver's own curves) keeps exactly the node values it had
immediately after `A`'s own solve completed, and any curve whose values
changed is owned by the dependent solver. -/
theorem pre_solver_curves_unmutated (A B : SolverCfg)
    (updA updB : Store → CurveId → List ℚ) (st₀ stA stB : Store)
    (hA : solveLoop A updA A.maxIter st₀ = .ok stA)
    (hdisj : ∀ id ∈ A.owned, ¬ id ∈ B.owned)
    (hB : solveLoop B updB B.maxIter stA = .ok stB) :
    (∀ id ∈ A.owned, stB id = stA id)
      ∧ (∀ id, stB id ≠ stA id → id ∈ B.owned) := by
  constructor
  · intro id hid
    exact solveLoop_frame B updB B.maxIter stA stB hB id (hdisj id hid)
  · intro id hne
    by_contra hid
    exact hne (solveLoop_frame B updB B.maxIter stA stB hB id hid)

set_option maxHeartbeats 1000000 in
/-- Witness for C4: solver `B` (owning curve 1) solved on top of
pre-solver `A` (owning curve 0) leaves curve 0's node values untouched. -/
theorem pre_solver_curves_unmutated_check :
    solveLoop ⟨[1], [fun st => (st 1).headD 0], [7], 1, 2⟩
        (fun _ _ => [7]) 2 (fun _ => [5])
      = .ok (stepStore ⟨[1], [fun st => (st 1).headD 0], [7], 1, 2⟩
          (fun _ _ => [7]) (fun _ => [5]))
    ∧ stepStore ⟨[1], [fun st => (st 1).headD 0], [7], 1, 2⟩
          (fun _ _ => [7]) (fun _ => [5]) 0
        = (fun _ => ([5] : List ℚ)) 0 := by
  have hA : solveLoop ⟨[0], [fun st => (st 0).headD 0], [5], 1, 1⟩
      (fun _ _ => []) 1 (fun _ => [5]) = .ok (fun _ => [5]) := by
    norm_num [solveLoop, convergedB, residual]
  have hB : solveLoop ⟨[1], [fun st => (st 1).headD 0], [7], 1, 2⟩
      (fun _ _ => [7]) 2 (fun _ => [5])
      = .ok (stepStore ⟨[1], [fun st => (st 1).headD 0], [7], 1, 2⟩
          (fun _ _ => [7]) (fun _ => [5])) := by
    norm_num [solveLoop, convergedB, residual, stepStore]
  exact ⟨hB, (pre_solver_curves_unmutated
      ⟨[0], [fun st => (st 0).headD 0], [5], 1, 1⟩
      ⟨[1], [fun st => (st 1).headD 0], [7], 1, 2⟩
      (fun _ _ => []) (fun _ _ => [7]) (fun _ => [5]) (fun _ => [5])
      (stepStore ⟨[1], [fun st => (st 1).headD 0], [7], 1, 2⟩
        (fun _ _ => [7]) (fun _ => [5]))
      hA (by decide) hB).1 0 (List.mem_singleton.mpr rfl)⟩

/-- C10: the `Solver` constructor itself performs the full calibration:
when construction returns successfully, the returned (in-place mutated)
store already reprices every calibration instrument to within tolerance,
with no separate solve call. -/
theorem constructor_calibrates (cfg : SolverCfg)
    (upd : Store → CurveId → List ℚ) (st st' : Store) (sv : SolverCfg)
    (h : mkSolver cfg upd st = .ok (sv, st')) :
    ∀ p ∈ cfg.instruments.zip cfg.targets, |p.1 st' - p.2| < cfg.tol := by
  have hloop : solveLoop cfg upd cfg.maxIter st = .ok st' := by
    unfold mkSolver at h
    cases hres : solveLoop cfg upd cfg.maxIter st with
    | error e => rw [hres] at h; simp [Except.map] at h
    | ok s => rw [hres] at h; simp [Except.map] at h; rw [h.2]
  exact convergedB_reprices cfg st'
    (solveLoop_ok_converged cfg upd cfg.maxIter st st' hloop)

set_option maxHeartbeats 1000000 in
/-- Witness for C10: constructing a solver over an uncalibrated store
returns a store on which every instrument already reprices to its target. -/
theorem constructor_calibrates_check :
    mkSolver ⟨[0], [fun st => (st 0).headD 0], [3], 1, 2⟩
        (fun _ _ => [3]) (fun _ => [])
      = .ok (⟨[0], [fun st => (st 0).headD 0], [3], 1, 2⟩,
          stepStore ⟨[0], [fun st => (st 0).headD 0], [3], 1, 2⟩
            (fun _ _ => [3]) (fun _ => []))
    ∧ |(fun (st : Store) => (st 0).headD 0)
          (stepStore ⟨[0], [fun st => (st 0).headD 0], [3], 1, 2⟩
            (fun _ _ => [3]) (fun _ => [])) - 3|
        < (⟨[0], [fun st => (st 0).headD 0], [3], 1, 2⟩ : SolverCfg).tol := by
  have h : mkSolver ⟨[0], [fun st => (st 0).headD 0], [3], 1, 2⟩
      (fun _ _ => [3]) (fun _ => [])
      = .ok (⟨[0], [fun st => (st 0).headD 0], [3], 1, 2⟩,
          stepStore ⟨[0], [fun st => (st 0).headD 0], [3], 1, 2⟩
            (fun _ _ => [3]) (fun _ => [])) := by
    norm_num [mkSolver, solveLoop, convergedB, residual, stepStore, Except.map]
  exact ⟨h, constructor_calibrates ⟨[0], [fun st => (st 0).headD 0], [3], 1, 2⟩
    (fun _ _ => [3]) (fun _ => [])
    (stepStore ⟨[0], [fun st => (st 0).headD 0], [3], 1, 2⟩
      (fun _ _ => [3]) (fun _ => []))
    ⟨[0], [fun st => (st 0).headD 0], [3], 1, 2⟩ h
    ((fun (st : Store) => (st 0).headD 0), 3) (List.mem_singleton.mpr rfl)⟩

/-! ## Lemmas: cyclic pre-solver detection -/

theorem reachPlus_append {deps : ℕ → List ℕ} {a b c : ℕ}
    (h : ReachPlus deps a b) (hc : c ∈ deps b) : ReachPlus deps a c := by
  induction h with
  | base hab => exact .step hab (.base hc)
  | step hab _ ih => exact .step hab (ih hc)

/-- A built list is cycle-free when none of its members lies on a cyclic
dependency path. -/
def CycleFree (deps : ℕ → List ℕ) (S : List ℕ) : Prop :=
  ∀ v ∈ S, ¬ ReachPlus deps v v

theorem cycleFree_extend {deps : ℕ → List ℕ} {S : List ℕ} {u : ℕ}
    (hS : CycleFree deps S) (hdeps : ∀ d ∈ deps u, d ∈ S) :
    CycleFree deps (S ++ [u]) := by
  intro v hv hcyc
  rcases List.mem_append.mp hv with hv | hv
  · exact hS v hv hcyc
  · have hvu : v = u := by simpa using hv
    subst hvu
    cases hcyc with
    | base h => exact hS v (hdeps v h) (.base h)
    | step hw hwu =>
        rename_i w
        exact hS w (hdeps w hw) (reachPlus_append hwu hw)

theorem constructPass_cycleFree (deps : ℕ → List ℕ) :
    ∀ (ids : List ℕ) (built : List ℕ), CycleFree deps built →
      CycleFree deps (constructPass deps ids built) := by
  intro ids
  induction ids with
  | nil => intro built h; exact h
  | cons a tl ih =>
      intro built h
      rw [constructPass, List.foldl_cons]
      by_cases hc : ¬ a ∈ built ∧ (deps a).all (fun d => d ∈ built)
      · refine ih _ ?_
        simp only [hc, if_true]
        exact cycleFree_extend h
          (fun d hd => by simpa using (List.all_eq_true.mp hc.2) d hd)
      · rw [if_neg hc]
        exact ih built h

theorem constructAll_cycleFree (deps : ℕ → List ℕ) (ids : List ℕ) :
    ∀ (fuel : ℕ) (built : List ℕ), CycleFree deps built →
      CycleFree deps (constructAll deps ids fuel built) := by
  intro fuel
  induction fuel with
  | zero => intro built h; exact h
  | succ n ih =>
      intro built h
      exact ih _ (constructPass_cycleFree deps ids built h)

/-- C5: a set of solvers whose pre-solver references form a cycle
(directly or transitively) fails with `CyclicDependency` at construction
time — and hence `buildAndSolve` fails before any solve iteration runs,
for every solve phase and every initial store. -/
theorem cyclic_dependency_detected (deps : ℕ → List ℕ) (ids : List ℕ)
    (v : ℕ) (hv : v ∈ ids) (hcyc : ReachPlus deps v v) :
    constructSolverSet deps ids = .error .cyclicDependency
      ∧ ∀ (runAll : List ℕ → Store → Store) (st : Store),
          buildAndSolve deps ids runAll st = .error .cyclicDependency := by
  have hfree : CycleFree deps (constructAll deps ids ids.length []) :=
    constructAll_cycleFree deps ids ids.length [] (by intro x hx; simp at hx)
  have hna : ¬ (ids.all (fun id => id ∈ constructAll deps ids ids.length [])
      = true) := by
    intro hall
    have hvin : v ∈ constructAll deps ids ids.length [] := by
      simpa using (List.all_eq_true.mp hall) v hv
    exact hfree v hvin hcyc
  have hcs : constructSolverSet deps ids = .error .cyclicDependency := by
    rw [constructSolverSet]
    simp only [Bool.not_eq_true] at hna
    simp [hna]
  refine ⟨hcs, fun runAll st => ?_⟩
  rw [buildAndSolve, hcs]

/-- Witness for C5: two mutually dependent solvers (`0` depends on `1`,
`1` depends on `0`) fail construction with `CyclicDependency`. -/
theorem cyclic_dependency_detected_check :
    constructSolverSet
        (fun n => if n = 0 then [1] else if n = 1 then [0] else []) [0, 1]
      = .error .cyclicDependency :=
  (cyclic_dependency_detected
      (fun n => if n = 0 then [1] else if n = 1 then [0] else []) [0, 1] 0
      (by decide)
      (.step (show 1 ∈ [1] by decide)
        (.base (show (0 : ℕ) ∈ [0] by decide)))).1

/-! ## Lemmas: interpolation node exactness -/

section InterpLemmas

variable {F : Type} [LinearOrderedField F]

theorem lookupWith_node_exact (toT fromT : F → F → F) :
    ∀ (nodes : List (F × F)),
      nodes.Pairwise (fun p q => p.1 < q.1) →
      (∀ p ∈ nodes, fromT p.1 (toT p.1 p.2) = p.2) →
      ∀ p ∈ nodes, lookupWith toT fromT nodes p.1 = some p.2 := by
  intro nodes
  induction nodes with
  | nil => intro _ _ p hp; simp at hp
  | cons hd tl ih =>
      intro hsort hinv p hp
      obtain ⟨t₀, v₀⟩ := hd
      cases tl with
      | nil =>
          have hpe : p = (t₀, v₀) := by simpa using hp
          subst hpe
          simp [lookupWith]
      | cons hd₁ tl₁ =>
          obtain ⟨t₁, v₁⟩ := hd₁
          have hlt01 : t₀ < t₁ :=
            (List.pairwise_cons.mp hsort).1 (t₁, v₁) (List.mem_cons_self _ _)
          rcases List.mem_cons.mp hp with hpe | hp'
          · subst hpe
            simp only [lookupWith]
            rw [if_neg (lt_irrefl t₀), if_pos (le_of_lt hlt01)]
            have h0 : toT t₀ v₀
                + (t₀ - t₀) / (t₁ - t₀) * (toT t₁ v₁ - toT t₀ v₀)
                = toT t₀ v₀ := by simp
            rw [h0, hinv (t₀, v₀) (List.mem_cons_self _ _)]
          · rcases List.mem_cons.mp hp' with hpe | hp''
            · subst hpe
              simp only [lookupWith]
              rw [if_neg (not_lt.mpr (le_of_lt hlt01)), if_pos (le_refl t₁)]
              have hne : t₁ - t₀ ≠ 0 := sub_ne_zero.mpr (ne_of_gt hlt01)
              have h1 : toT t₀ v₀
                  + (t₁ - t₀) / (t₁ - t₀) * (toT t₁ v₁ - toT t₀ v₀)
                  = toT t₁ v₁ := by rw [div_self hne]; ring
              rw [h1, hinv (t₁, v₁) (by simp)]
            · have hlt1p : t₁ < p.1 :=
                (List.pairwise_cons.mp (List.pairwise_cons.mp hsort).2).1 p hp''
              simp only [lookupWith]
              rw [if_neg (not_lt.mpr (le_of_lt (lt_trans hlt01 hlt1p))),
                if_neg (not_le.mpr hlt1p)]
              exact ih (List.pairwise_cons.mp hsort).2
                (fun q hq => hinv q (List.mem_cons_of_mem _ hq)) p hp'

theorem flatLookup_node_exact :
    ∀ (nodes : List (F × F)),
      nodes.Pairwise (fun p q => p.1 < q.1) →
      ∀ p ∈ nodes, flatLookup nodes p.1 = some p.2 := by
  intro nodes
  induction nodes with
  | nil => intro _ p hp; simp at hp
  | cons hd tl ih =>
      intro hsort p hp
      obtain ⟨t₀, v₀⟩ := hd
      cases tl with
      | nil =>
          have hpe : p = (t₀, v₀) := by simpa using hp
          subst hpe
          simp [flatLookup]
      | cons hd₁ tl₁ =>
          obtain ⟨t₁, v₁⟩ := hd₁
          have hlt01 : t₀ < t₁ :=
            (List.pairwise_cons.mp hsort).1 (t₁, v₁) (List.mem_cons_self _ _)
          rcases List.mem_cons.mp hp with hpe | hp'
          · subst hpe
            simp only [flatLookup]
            rw [if_neg (lt_irrefl t₀), if_pos hlt01]
          · have hle1p : t₁ ≤ p.1 := by
              rcases List.mem_cons.mp hp' with hpe | hp''
              · rw [hpe]
              · exact le_of_lt
                  ((List.pairwise_cons.mp (List.pairwise_cons.mp hsort).2).1 p hp'')
            simp only [flatLookup]
            rw [if_neg (not_lt.mpr (le_of_lt (lt_of_lt_of_le hlt01 hle1p))),
              if_neg (not_lt.mpr hle1p)]
            exact ih (List.pairwise_cons.mp hsort).2 p hp'

theorem splineLookup_node_exact (knots : List F) (nodes : List (F × F))
    (hdet : (collocMat knots nodes).det ≠ 0) (i : Fin nodes.length) :
    splineLookup knots nodes (nodes.get i).1 = (nodes.get i).2 := by
  have key : (collocMat knots nodes).mulVec (splineCoeffs knots nodes)
      = fun j => (nodes.get j).2 := by
    rw [splineCoeffs, Matrix.mulVec_smul, Matrix.mulVec_mulVec,
      Matrix.mul_adjugate, Matrix.smul_mulVec_assoc, Matrix.one_mulVec,
      smul_smul, inv_mul_cancel₀ hdet, one_smul]
  have hkey := congrFun key i
  simp only [Matrix.mulVec, Matrix.dotProduct] at hkey
  rw [splineLookup, ← hkey]
  refine Finset.sum_congr rfl (fun j _ => ?_)
  show splineCoeffs knots nodes j * bspl knots 3 (j : ℕ) (nodes.get i).1
      = collocMat knots nodes i j * splineCoeffs knots nodes j
  have hA : collocMat knots nodes i j = bspl knots 3 (j : ℕ) (nodes.get i).1 :=
    rfl
  rw [hA, mul_comm]

end InterpLemmas

/-- C8: for every discount curve (anchor value 1, positive values,
strictly increasing node dates) and every node, the lookup at the node's
date returns exactly the stored node value, for every interpolation
strategy: `log_linear`, `linear`, `linear_index`, `linear_zero_rate`,
`flat_forward`, and the (nonsingular) spline/mixed fit. -/
theorem node_exactness (a : ℝ) (tl : List (ℝ × ℝ))
    (hsort : ((a, (1 : ℝ)) :: tl).Pairwise (fun p q => p.1 < q.1))
    (hpos : ∀ p ∈ (a, (1 : ℝ)) :: tl, 0 < p.2) :
    (∀ p ∈ (a, (1 : ℝ)) :: tl,
        lookupWith (fun _ v => Real.log v) (fun _ w => Real.exp w)
            ((a, 1) :: tl) p.1 = some p.2
        ∧ lookupWith (fun _ v => v) (fun _ w => w) ((a, 1) :: tl) p.1 = some p.2
        ∧ lookupWith (fun _ v => v⁻¹) (fun _ w => w⁻¹) ((a, 1) :: tl) p.1
            = some p.2
        ∧ lookupWith (fun t v => -Real.log v * (360 / (t - a)))
            (fun t w => Real.exp (-(w * (t - a) / 360))) ((a, 1) :: tl) p.1
            = some p.2
        ∧ flatLookup ((a, 1) :: tl) p.1 = some p.2)
    ∧ ∀ (knots : List ℚ) (nq : List (ℚ × ℚ)),
        (collocMat knots nq).det ≠ 0 →
          ∀ i : Fin nq.length,
            splineLookup knots nq (nq.get i).1 = (nq.get i).2 := by
  constructor
  · intro p hp
    refine ⟨?_, ?_, ?_, ?_, ?_⟩
    · exact lookupWith_node_exact _ _ _ hsort
        (fun q hq => Real.exp_log (hpos q hq)) p hp
    · exact lookupWith_node_exact _ _ _ hsort (fun q hq => rfl) p hp
    · exact lookupWith_node_exact _ _ _ hsort (fun q hq => inv_inv q.2) p hp
    · refine lookupWith_node_exact _ _ _ hsort (fun q hq => ?_) p hp
      rcases List.mem_cons.mp hq with hqe | hq'
      · rw [hqe]; simp
      · have hne : q.1 - a ≠ 0 :=
          sub_ne_zero.mpr (ne_of_gt ((List.pairwise_cons.mp hsort).1 q hq'))
        show Real.exp (-(-Real.log q.2 * (360 / (q.1 - a)) * (q.1 - a) / 360))
            = q.2
        have h1 : -(-Real.log q.2 * (360 / (q.1 - a)) * (q.1 - a) / 360)
            = Real.log q.2 := by
          field_simp
          ring
        rw [h1]
        exact Real.exp_log (hpos q hq)
    · exact flatLookup_node_exact _ hsort p hp
  · intro knots nq hdet i
    exact splineLookup_node_exact knots nq hdet i

/-- Witness for C8 at a two-node curve over `ℝ` for the transform-based
strategies and a one-node spline fit over `ℚ`. -/
theorem node_exactness_check :
    lookupWith (fun _ v => Real.log v) (fun _ w => Real.exp w)
        [((0 : ℝ), (1 : ℝ)), (30, 1/2)] 30 = some (1/2)
    ∧ lookupWith (fun _ v => v) (fun _ w => w)
        [((0 : ℝ), (1 : ℝ)), (30, 1/2)] 30 = some (1/2)
    ∧ lookupWith (fun _ v => v⁻¹) (fun _ w => w⁻¹)
        [((0 : ℝ), (1 : ℝ)), (30, 1/2)] 30 = some (1/2)
    ∧ lookupWith (fun t v => -Real.log v * (360 / (t - 0)))
        (fun t w => Real.exp (-(w * (t - 0) / 360)))
        [((0 : ℝ), (1 : ℝ)), (30, 1/2)] 30 = some (1/2)
    ∧ flatLookup [((0 : ℝ), (1 : ℝ)), (30, 1/2)] 30 = some (1/2)
    ∧ splineLookup [0, 0, 0, 0, 1] [((0 : ℚ), 97/100)] 0 = 97/100 := by
  have hsort : (((0 : ℝ), (1 : ℝ)) :: [((30 : ℝ), (1/2 : ℝ))]).Pairwise
      (fun p q => p.1 < q.1) := by
    norm_num [List.pairwise_cons]
  have hpos : ∀ p ∈ ((0 : ℝ), (1 : ℝ)) :: [((30 : ℝ), (1/2 : ℝ))], 0 < p.2 := by
    rintro p hp
    simp only [List.mem_cons, List.not_mem_nil, or_false] at hp
    rcases hp with rfl | rfl <;> norm_num
  have hmem : ((30 : ℝ), (1/2 : ℝ)) ∈ ((0 : ℝ), (1 : ℝ)) :: [((30 : ℝ), (1/2 : ℝ))] :=
    List.mem_cons_of_mem _ (List.mem_singleton.mpr rfl)
  have hmain := (node_exactness 0 [((30 : ℝ), (1/2 : ℝ))] hsort hpos).1
    ((30 : ℝ), (1/2 : ℝ)) hmem
  have hdet : (collocMat [0, 0, 0, 0, 1] [((0 : ℚ), 97/100)]).det ≠ 0 := by
    have h : (collocMat [0, 0, 0, 0, 1] [((0 : ℚ), 97/100)]).det
        = collocMat [0, 0, 0, 0, 1] [((0 : ℚ), 97/100)]
            ⟨0, Nat.one_pos⟩ ⟨0, Nat.one_pos⟩ :=
      Matrix.det_fin_one _
    rw [h]
    show bspl [0, 0, 0, 0, 1] 3 0 0 ≠ 0
    norm_num [bspl]
  exact ⟨hmain.1, hmain.2.1, hmain.2.2.1, hmain.2.2.2.1, hmain.2.2.2.2,
    (node_exactness 0 [((30 : ℝ), (1/2 : ℝ))] hsort hpos).2
      [0, 0, 0, 0, 1] [((0 : ℚ), 97/100)] hdet ⟨0, Nat.one_pos⟩⟩

/-! ## Lemmas: two-node curves and translate -/

section TwoNode

theorem flatLookup_two_left (d₀ d₁ x y t : ℝ) (h0 : d₀ ≤ t) (h1 : t < d₁) :
    flatLookup [(d₀, x), (d₁, y)] t = some x := by
  simp only [flatLookup]
  rw [if_neg (not_lt.mpr h0), if_pos h1]

theorem flatLookup_two_right (d₀ d₁ x y : ℝ) (h : d₀ < d₁) :
    flatLookup [(d₀, x), (d₁, y)] d₁ = some y := by
  simp only [flatLookup]
  rw [if_neg (not_lt.mpr (le_of_lt h)), if_neg (lt_irrefl d₁)]
  simp [flatLookup]

/-- C2: a two-node `flat_forward` curve with nodes `(d₀, 1)` and
`(d₁, df₁)` has a constant discount factor equal to the left node's
value on `[d₀, d₁)` and drops to `df₁` only at `d₁`; the
continuously-compounded forward rate sampled between any two dates
strictly inside the interval is exactly zero, and the log-accrual over
`[s, d₁]` for any interior `s` equals the accrual over the whole
interval (all accrual concentrated in the jump at `d₁`). -/
theorem flat_forward_concentration (d₀ d₁ df₁ : ℝ) (h01 : d₀ < d₁) :
    (∀ t, d₀ ≤ t → t < d₁ → flatLookup [(d₀, (1 : ℝ)), (d₁, df₁)] t = some 1)
    ∧ flatLookup [(d₀, (1 : ℝ)), (d₁, df₁)] d₁ = some df₁
    ∧ (∀ s u, d₀ ≤ s → s < u → u < d₁ →
        fwdRateWith Real.log
            ((flatLookup [(d₀, (1 : ℝ)), (d₁, df₁)] s).getD 0)
            ((flatLookup [(d₀, (1 : ℝ)), (d₁, df₁)] u).getD 0)
            (dcf360 s u) = 0)
    ∧ (∀ s, d₀ ≤ s → s < d₁ →
        Real.log ((flatLookup [(d₀, (1 : ℝ)), (d₁, df₁)] s).getD 0)
            - Real.log ((flatLookup [(d₀, (1 : ℝ)), (d₁, df₁)] d₁).getD 0)
          = Real.log ((flatLookup [(d₀, (1 : ℝ)), (d₁, df₁)] d₀).getD 0)
            - Real.log ((flatLookup [(d₀, (1 : ℝ)), (d₁, df₁)] d₁).getD 0)) := by
  refine ⟨fun t h0 h1 => flatLookup_two_left d₀ d₁ 1 df₁ t h0 h1,
    flatLookup_two_right d₀ d₁ 1 df₁ h01, ?_, ?_⟩
  · intro s u hs hsu hu
    rw [flatLookup_two_left d₀ d₁ 1 df₁ s hs (lt_trans hsu hu),
      flatLookup_two_left d₀ d₁ 1 df₁ u (le_of_lt (lt_of_le_of_lt hs hsu)) hu]
    simp [fwdRateWith]
  · intro s hs hsd
    rw [flatLookup_two_left d₀ d₁ 1 df₁ s hs hsd,
      flatLookup_two_left d₀ d₁ 1 df₁ d₀ (le_refl d₀) h01]

/-- Witness for C2 at the curve `[(0, 1), (30, 1/2)]`. -/
theorem flat_forward_concentration_check :
    flatLookup [((0 : ℝ), (1 : ℝ)), (30, 1/2)] 10 = some 1
    ∧ flatLookup [((0 : ℝ), (1 : ℝ)), (30, 1/2)] 30 = some (1/2)
    ∧ fwdRateWith Real.log
        ((flatLookup [((0 : ℝ), (1 : ℝ)), (30, 1/2)] 5).getD 0)
        ((flatLookup [((0 : ℝ), (1 : ℝ)), (30, 1/2)] 15).getD 0)
        (dcf360 5 15) = 0 :=
  ⟨(flat_forward_concentration 0 30 (1/2) (by norm_num)).1 10
      (by norm_num) (by norm_num),
    (flat_forward_concentration 0 30 (1/2) (by norm_num)).2.1,
    (flat_forward_concentration 0 30 (1/2) (by norm_num)).2.2.1 5 15
      (by norm_num) (by norm_num) (by norm_num)⟩

theorem loglinear_two_val (d₀ d₁ v₀ v₁ t : ℝ) (h0 : d₀ ≤ t) (h1 : t ≤ d₁) :
    lookupWith (fun _ v => Real.log v) (fun _ w => Real.exp w)
        [(d₀, v₀), (d₁, v₁)] t
      = some (Real.exp (Real.log v₀
          + (t - d₀) / (d₁ - d₀) * (Real.log v₁ - Real.log v₀))) := by
  simp only [lookupWith]
  rw [if_neg (not_lt.mpr h0), if_pos h1]

/-- C3: on a two-node `log_linear` curve with nodes `(d₀, 1)` and
`(d₁, df₁)`, the continuously-compounded forward rate sampled between
any two distinct dates inside the interval equals the constant forward
rate implied by the two node values exactly — in particular to within
`1e-10` relative tolerance. -/
theorem log_linear_constant_forward (d₀ d₁ df₁ : ℝ) (h01 : d₀ < d₁)
    (hdf : 0 < df₁) :
    ∀ s u, d₀ ≤ s → s < u → u ≤ d₁ →
      fwdRateWith Real.log
          ((lookupWith (fun _ v => Real.log v) (fun _ w => Real.exp w)
              [(d₀, (1 : ℝ)), (d₁, df₁)] s).getD 0)
          ((lookupWith (fun _ v => Real.log v) (fun _ w => Real.exp w)
              [(d₀, (1 : ℝ)), (d₁, df₁)] u).getD 0)
          (dcf360 s u)
        = fwdRateWith Real.log 1 df₁ (dcf360 d₀ d₁)
      ∧ |fwdRateWith Real.log
            ((lookupWith (fun _ v => Real.log v) (fun _ w => Real.exp w)
                [(d₀, (1 : ℝ)), (d₁, df₁)] s).getD 0)
            ((lookupWith (fun _ v => Real.log v) (fun _ w => Real.exp w)
                [(d₀, (1 : ℝ)), (d₁, df₁)] u).getD 0)
            (dcf360 s u)
          - fwdRateWith Real.log 1 df₁ (dcf360 d₀ d₁)|
        ≤ 1 / 10000000000 * |fwdRateWith Real.log 1 df₁ (dcf360 d₀ d₁)| := by
  intro s u hs hsu hu
  have heq : fwdRateWith Real.log
      ((lookupWith (fun _ v => Real.log v) (fun _ w => Real.exp w)
          [(d₀, (1 : ℝ)), (d₁, df₁)] s).getD 0)
      ((lookupWith (fun _ v => Real.log v) (fun _ w => Real.exp w)
          [(d₀, (1 : ℝ)), (d₁, df₁)] u).getD 0)
      (dcf360 s u)
      = fwdRateWith Real.log 1 df₁ (dcf360 d₀ d₁) := by
    rw [loglinear_two_val d₀ d₁ 1 df₁ s hs (le_of_lt (lt_of_lt_of_le hsu hu)),
      loglinear_two_val d₀ d₁ 1 df₁ u (le_trans hs (le_of_lt hsu)) hu]
    simp only [Option.getD_some, fwdRateWith, dcf360, Real.log_exp,
      Real.log_one]
    have hne1 : u - s ≠ 0 := sub_ne_zero.mpr (ne_of_gt hsu)
    have hne2 : d₁ - d₀ ≠ 0 := sub_ne_zero.mpr (ne_of_gt h01)
    field_simp
    ring
  refine ⟨heq, ?_⟩
  rw [heq, sub_self, abs_zero]
  positivity

/-- Witness for C3 at the curve `[(0, 1), (30, 1/2)]` sampled over
`[10, 20]`. -/
theorem log_linear_constant_forward_check :
    fwdRateWith Real.log
        ((lookupWith (fun _ v => Real.log v) (fun _ w => Real.exp w)
            [((0 : ℝ), (1 : ℝ)), (30, 1/2)] 10).getD 0)
        ((lookupWith (fun _ v => Real.log v) (fun _ w => Real.exp w)
            [((0 : ℝ), (1 : ℝ)), (30, 1/2)] 20).getD 0)
        (dcf360 10 20)
      = fwdRateWith Real.log 1 (1/2) (dcf360 0 30) :=
  ((log_linear_constant_forward 0 30 (1/2) (by norm_num) (by norm_num))
    10 20 (by norm_num) (by norm_num) (by norm_num)).1

end TwoNode

/-! ## Lemmas: translate -/

section Translate

theorem filter_gt_anchor {F : Type} [LinearOrderedField F] (a v : F)
    (tl : List (F × F))
    (hsort : ((a, v) :: tl).Pairwise (fun p q => p.1 < q.1)) :
    ((a, v) :: tl).filter (fun p => a < p.1) = tl := by
  rw [List.filter_cons]
  have hfa : (decide (a < (a, v).1)) = false := by simp
  rw [hfa]
  simp only [Bool.false_eq_true, if_false]
  rw [List.filter_eq_self]
  intro p hp
  simpa using (List.pairwise_cons.mp hsort).1 p hp

theorem translate_anchor_nodes {F : Type} [LinearOrderedField F]
    (lookupF : List (F × F) → F → Option F) (a v : F) (tl : List (F × F))
    (hsort : ((a, v) :: tl).Pairwise (fun p q => p.1 < q.1))
    (hlk : lookupF ((a, v) :: tl) a = some v) :
    translate lookupF ((a, v) :: tl) a = (a, v) :: tl := by
  rw [translate, hlk, filter_gt_anchor a v tl hsort]
  rfl

/-- C9: translating a curve to its own anchor date is the identity: the
re-anchored node list equals the original exactly for the `log_linear`
and `linear` strategies (so every rate lookup agrees), and for the
(nonsingular) spline fit the translated curve's values differ from the
original by at most `1e-8` (in fact exactly zero). -/
theorem translate_identity (a v₀ : ℝ) (tl : List (ℝ × ℝ))
    (hsort : ((a, v₀) :: tl).Pairwise (fun p q => p.1 < q.1))
    (hpos : ∀ p ∈ (a, v₀) :: tl, 0 < p.2) :
    translate (lookupWith (fun _ v => Real.log v) (fun _ w => Real.exp w))
        ((a, v₀) :: tl) a = (a, v₀) :: tl
    ∧ translate (lookupWith (fun _ v => v) (fun _ w => w))
        ((a, v₀) :: tl) a = (a, v₀) :: tl
    ∧ (∀ t, lookupWith (fun _ v => Real.log v) (fun _ w => Real.exp w)
          (translate
            (lookupWith (fun _ v => Real.log v) (fun _ w => Real.exp w))
            ((a, v₀) :: tl) a) t
        = lookupWith (fun _ v => Real.log v) (fun _ w => Real.exp w)
            ((a, v₀) :: tl) t)
    ∧ (∀ (knots : List ℚ) (aq vq : ℚ) (tlq : List (ℚ × ℚ)),
        ((aq, vq) :: tlq).Pairwise (fun p q => p.1 < q.1) →
        (collocMat knots ((aq, vq) :: tlq)).det ≠ 0 →
          translate (fun ns t => some (splineLookup knots ns t))
              ((aq, vq) :: tlq) aq = (aq, vq) :: tlq
          ∧ ∀ t : ℚ,
              |splineLookup knots
                  (translate (fun ns t => some (splineLookup knots ns t))
                    ((aq, vq) :: tlq) aq) t
                - splineLookup knots ((aq, vq) :: tlq) t|
              ≤ 1/100000000) := by
  have hlog : translate
      (lookupWith (fun _ v => Real.log v) (fun _ w => Real.exp w))
      ((a, v₀) :: tl) a = (a, v₀) :: tl :=
    translate_anchor_nodes _ a v₀ tl hsort
      (lookupWith_node_exact _ _ _ hsort
        (fun q hq => Real.exp_log (hpos q hq)) (a, v₀) (List.mem_cons_self _ _))
  have hlin : translate (lookupWith (fun _ v => v) (fun _ w => w))
      ((a, v₀) :: tl) a = (a, v₀) :: tl :=
    translate_anchor_nodes _ a v₀ tl hsort
      (lookupWith_node_exact _ _ _ hsort (fun q hq => rfl) (a, v₀)
        (List.mem_cons_self _ _))
  refine ⟨hlog, hlin, fun t => by rw [hlog], ?_⟩
  intro knots aq vq tlq hsq hdet
  have hlkq : (fun ns t => some (splineLookup knots ns t)) ((aq, vq) :: tlq) aq
      = some vq :=
    congrArg some (splineLookup_node_exact knots ((aq, vq) :: tlq) hdet
      ⟨0, Nat.succ_pos _⟩)
  have htr := translate_anchor_nodes
    (fun ns t => some (splineLookup knots ns t)) aq vq tlq hsq hlkq
  refine ⟨htr, fun t => ?_⟩
  rw [htr, sub_self, abs_zero]
  norm_num

/-- Witness for C9 at a two-node `ℝ` curve and a one-node `ℚ` spline. -/
theorem translate_identity_check :
    translate (lookupWith (fun _ v => Real.log v) (fun _ w => Real.exp w))
        [((0 : ℝ), (1 : ℝ)), (30, 1/2)] 0 = [((0 : ℝ), (1 : ℝ)), (30, 1/2)]
    ∧ translate (fun ns t => some (splineLookup [0, 0, 0, 0, 1] ns t))
        [((0 : ℚ), 97/100)] 0 = [((0 : ℚ), 97/100)] := by
  have hsort : (((0 : ℝ), (1 : ℝ)) :: [((30 : ℝ), (1/2 : ℝ))]).Pairwise
      (fun p q => p.1 < q.1) := by
    norm_num [List.pairwise_cons]
  have hpos : ∀ p ∈ ((0 : ℝ), (1 : ℝ)) :: [((30 : ℝ), (1/2 : ℝ))], 0 < p.2 := by
    rintro p hp
    simp only [List.mem_cons, List.not_mem_nil, or_false] at hp
    rcases hp with rfl | rfl <;> norm_num
  have hdet : (collocMat [0, 0, 0, 0, 1] (((0 : ℚ), 97/100) :: [])).det ≠ 0 := by
    have h : (collocMat [0, 0, 0, 0, 1] (((0 : ℚ), 97/100) :: [])).det
        = collocMat [0, 0, 0, 0, 1] (((0 : ℚ), 97/100) :: [])
            ⟨0, Nat.one_pos⟩ ⟨0, Nat.one_pos⟩ :=
      Matrix.det_fin_one _
    rw [h]
    show bspl [0, 0, 0, 0, 1] 3 0 0 ≠ 0
    norm_num [bspl]
  have hmain := translate_identity 0 1 [((30 : ℝ), (1/2 : ℝ))] hsort hpos
  exact ⟨hmain.1,
    (hmain.2.2.2 [0, 0, 0, 0, 1] 0 (97/100) [] (by simp) hdet).1⟩

end Translate

end Rateslib
